import Mathlib

set_option maxHeartbeats 1000000

/-!
Verification of the protocol feature manager
(`src/libraries/chain/protocol_feature_manager.cpp`).

The development shallowly embeds the feature catalog (`protocol_feature_set`),
the activation log (`protocol_feature_manager`) and its traversal interface,
and proves the testable properties stated in the specification against this
embedding.

Modelling conventions:
* `digest_type` (a 32-byte SHA-256 hash) is modelled as `Nat`; the compiled-in
  description-digest constants are carried over as hexadecimal literals.
* Machine integers (`uint32_t` block numbers, `size_t` indices) are modelled as
  `Nat`; the code only compares them, so no wrap-around arithmetic occurs.
* Modelled from the spec: the sentinels `builtin_protocol_feature_entry::not_active`
  and `no_previous` are defined in a header outside the given sources; following
  the specification's design notes ("Reimplement as `Option<index>` fields;
  sentinels ... are design-level, not language-level") both fields are modelled
  as `Option Nat` with `none` as the sentinel.  A comparison
  `activation_block_num <= b` against the `not_active` sentinel is `false`, and
  the pop-loop comparison in `popped_blocks_to` keeps popping on `none`.
* Exceptions (`EOS_ASSERT`/`EOS_THROW`) become explicit error values.  The C++
  methods mutate in place and throw; they are embedded as functions returning
  the final object state paired with `Option` of the error, so that statements
  about the state left behind after a failure are expressible.
-/

abbrev digest_type := Nat

abbrev time_point := Int

structure protocol_feature_subjective_restrictions where
  earliest_allowed_activation_time : time_point
  preactivation_required : Bool
  enabled : Bool
deriving DecidableEq, Repr

/-- `builtin_protocol_feature_spec`: compiled-in metadata of one builtin. -/
structure builtin_protocol_feature_spec where
  codename : String
  description_digest : digest_type
  builtin_dependencies : List Nat
  subjective_restrictions : protocol_feature_subjective_restrictions
deriving DecidableEq, Repr

/-- Modelled from the spec: the `builtin_protocol_feature_t` enumeration lives in a
header outside the given sources; its tags are modelled by their `uint32_t`
ordinals, in the order the compiled-in catalog lists them. -/
def preactivate_feature : Nat := 0

/-- Ordinal of the second builtin code (see `preactivate_feature`). -/
def only_link_to_existing_permission : Nat := 1

/-- The compiled-in builtin catalog (`builtin_protocol_feature_codenames`).
The map is modelled as an association list keyed by code ordinal.  Both
compiled-in entries declare no builtin dependencies.  (Modelled from the spec:
the defaulted subjective restrictions of the second entry come from a header
outside the given sources.) -/
def builtin_protocol_feature_codenames : List (Nat × builtin_protocol_feature_spec) :=
  [ (preactivate_feature,
      ⟨"PREACTIVATE_FEATURE",
       0x64fe7df32e9b86be2b296b3f81dfd527f84e82b98e363bc97e40bc7a83733310,
       [],
       ⟨0, false, true⟩⟩),
    (only_link_to_existing_permission,
      ⟨"ONLY_LINK_TO_EXISTING_PERMISSION",
       0xf3c3d91c4603cde2397268bfed4e662465293aab10cd9416db0d442b8cec2949,
       [],
       ⟨0, true, true⟩⟩) ]

/-- A catalog entry (`protocol_feature`). -/
structure protocol_feature where
  feature_digest : digest_type
  description_digest : digest_type
  dependencies : List digest_type
  earliest_allowed_activation_time : time_point
  preactivation_required : Bool
  enabled : Bool
  builtin_feature : Option Nat
deriving DecidableEq, Repr

/-- The feature catalog (`protocol_feature_set`).  The `flat_set` of recognized
features is modelled as a list (uniqueness of digests is enforced by
`add_feature`; only digest lookup is observable, so the ordering of the
underlying `flat_set` is immaterial).  The per-code side index stores the
stable reference to a catalog entry as the entry's digest. -/
structure protocol_feature_set where
  _recognized_protocol_features : List protocol_feature
  _recognized_builtin_protocol_features : List (Option digest_type)
deriving DecidableEq, Repr

/-- Digest lookup in the catalog (`_recognized_protocol_features.find`). -/
def protocol_feature_set.find (pfs : protocol_feature_set) (d : digest_type) :
    Option protocol_feature :=
  pfs._recognized_protocol_features.find? (fun pf => pf.feature_digest == d)

/-- A `builtin_protocol_feature` value as passed to `add_feature`. -/
structure builtin_protocol_feature where
  description_digest : digest_type
  dependencies : List digest_type
  subjective_restrictions : protocol_feature_subjective_restrictions
  _codename : Nat
deriving DecidableEq, Repr

inductive add_feature_error where
  | unknown_builtin_code
  | duplicate_builtin
  | missing_dependency
  | unsatisfied_builtin_dependencies
  | duplicate_digest
deriving DecidableEq, Repr

/-- The dependency loop of `protocol_feature_set::add_feature` (lines 282-297):
walks the feature's dependency digests in order, fails on the first digest that
is not recognized, and collects (deduplicated, as the `flat_set` insert does)
those resolved builtin codes that occur among the expected builtin
dependencies. -/
def satisfied_builtin_dependencies_loop (pfs : protocol_feature_set)
    (expected : List Nat) :
    List digest_type → List Nat → Except add_feature_error (List Nat)
  | [], acc => .ok acc
  | d :: rest, acc =>
    match pfs.find d with
    | none => .error .missing_dependency
    | some pf =>
      match pf.builtin_feature with
      | some c =>
        if c ∈ expected ∧ c ∉ acc then
          satisfied_builtin_dependencies_loop pfs expected rest (acc ++ [c])
        else
          satisfied_builtin_dependencies_loop pfs expected rest acc
      | none => satisfied_builtin_dependencies_loop pfs expected rest acc

/-- Growth of the per-code side index: `push_back` sentinel slots up to and
including index `n - 1` (lines 338-342). -/
def grow_builtin_index (l : List (Option digest_type)) (n : Nat) :
    List (Option digest_type) :=
  l ++ List.replicate (n - l.length) none

/-- `protocol_feature_set::add_feature` (lines 261-346).  The compiled-in
codename map is passed as the `codenames` parameter (the source consults the
global `builtin_protocol_feature_codenames`); `feature_digest` stands for the
value of `f.digest()`, whose SHA-256 computation is external to the given
sources and is therefore supplied by the caller. -/
def protocol_feature_set.add_feature
    (codenames : List (Nat × builtin_protocol_feature_spec))
    (pfs : protocol_feature_set) (f : builtin_protocol_feature)
    (feature_digest : digest_type) :
    Except add_feature_error protocol_feature_set :=
  match codenames.find? (fun p => p.1 == f._codename) with
  | none => .error .unknown_builtin_code
  | some p =>
    let indx := f._codename
    if indx < pfs._recognized_builtin_protocol_features.length ∧
        pfs._recognized_builtin_protocol_features.getD indx none ≠ none then
      .error .duplicate_builtin
    else
      let expected := p.2.builtin_dependencies
      match satisfied_builtin_dependencies_loop pfs expected f.dependencies [] with
      | .error e => .error e
      | .ok satisfied =>
        if satisfied.length < expected.length then
          .error .unsatisfied_builtin_dependencies
        else if (pfs.find feature_digest).isSome then
          .error .duplicate_digest
        else
          .ok
            { _recognized_protocol_features :=
                pfs._recognized_protocol_features ++
                  [⟨feature_digest, f.description_digest, f.dependencies,
                    f.subjective_restrictions.earliest_allowed_activation_time,
                    f.subjective_restrictions.preactivation_required,
                    f.subjective_restrictions.enabled,
                    some f._codename⟩],
              _recognized_builtin_protocol_features :=
                (grow_builtin_index pfs._recognized_builtin_protocol_features
                  (indx + 1)).set indx (some feature_digest) }

/-- The set of builtin codes obtained by resolving a dependency-digest list
through the catalog (each digest that is recognized and refers to a builtin
contributes its code). -/
def resolved_builtin_codes (pfs : protocol_feature_set) (deps : List digest_type) :
    List Nat :=
  deps.filterMap (fun d => (pfs.find d).bind (fun pf => pf.builtin_feature))

/-- One slot of the per-builtin table (`builtin_protocol_feature_entry`);
`none` models the `not_active` / `no_previous` sentinels. -/
structure builtin_protocol_feature_entry where
  activation_block_num : Option Nat
  previous : Option Nat
deriving DecidableEq, Repr

/-- One activation-log entry (`protocol_feature_entry`); the stable catalog
reference `iterator_to_protocol_feature` is modelled by the entry's digest. -/
structure protocol_feature_entry where
  feature_digest : digest_type
  activation_block_num : Nat
deriving DecidableEq, Repr

/-- The activation log (`protocol_feature_manager`). -/
structure protocol_feature_manager where
  _protocol_feature_set : protocol_feature_set
  _activated_protocol_features : List protocol_feature_entry
  _builtin_protocol_features : List builtin_protocol_feature_entry
  _head_of_builtin_activation_list : Option Nat
  _initialized : Bool
deriving DecidableEq, Repr

inductive pfm_error where
  | not_initialized
  | double_init
  | unrecognized_feature
  | non_monotonic_activation
  | unsupported_feature_kind
  | unknown_builtin_index
  | already_activated
deriving DecidableEq, Repr

/-- The `protocol_feature_manager` constructor (lines 350-354): empty log,
per-builtin table sized to the catalog's side index, all fields default
(sentinels, not initialized). -/
def protocol_feature_manager.make (pfs : protocol_feature_set) :
    protocol_feature_manager :=
  ⟨pfs, [],
   List.replicate pfs._recognized_builtin_protocol_features.length ⟨none, none⟩,
   none, false⟩

/-- `protocol_feature_manager::is_builtin_activated` (lines 479-487).  The
out-of-range guard returns `false`; the comparison against the `not_active`
sentinel is `false` (see the modelling note at the top of the file). -/
def protocol_feature_manager.is_builtin_activated (m : protocol_feature_manager)
    (feature_codename : Nat) (current_block_num : Nat) : Bool :=
  if m._builtin_protocol_features.length ≤ feature_codename then false
  else
    match (m._builtin_protocol_features.getD feature_codename ⟨none, none⟩).activation_block_num with
    | none => false
    | some b => decide (b ≤ current_block_num)

/-- `protocol_feature_manager::activate_feature` (lines 489-535).  Every check
precedes every mutation, exactly as in the source; on an error the returned
state is the state the object holds when the exception propagates. -/
def protocol_feature_manager.activate_feature (m : protocol_feature_manager)
    (feature_digest : digest_type) (current_block_num : Nat) :
    protocol_feature_manager × Option pfm_error :=
  if m._initialized = false then (m, some .not_initialized)
  else
    match m._protocol_feature_set.find feature_digest with
    | none => (m, some .unrecognized_feature)
    | some pf =>
      let mono_ok : Bool :=
        match m._activated_protocol_features.getLast? with
        | none => true
        | some lastE => decide (lastE.activation_block_num ≤ current_block_num)
      if mono_ok = false then (m, some .non_monotonic_activation)
      else
        match pf.builtin_feature with
        | none => (m, some .unsupported_feature_kind)
        | some indx =>
          if m._builtin_protocol_features.length ≤ indx then
            (m, some .unknown_builtin_index)
          else if (m._builtin_protocol_features.getD indx ⟨none, none⟩).activation_block_num ≠ none then
            (m, some .already_activated)
          else
            ({ m with
                _activated_protocol_features :=
                  m._activated_protocol_features ++ [⟨feature_digest, current_block_num⟩],
                _builtin_protocol_features :=
                  m._builtin_protocol_features.set indx
                    ⟨some current_block_num, m._head_of_builtin_activation_list⟩,
                _head_of_builtin_activation_list := some indx },
             none)

/-- The builtin-stack pop loop of `popped_blocks_to` (lines 540-547), with an
explicit fuel argument for termination; the caller passes fuel exceeding the
table size, which (the loop walks the intrusive stack, clearing one slot per
step) is never exhausted on states satisfying the manager invariant. -/
def pop_stack_loop (block_num : Nat) :
    Nat → List builtin_protocol_feature_entry × Option Nat →
    List builtin_protocol_feature_entry × Option Nat
  | 0, st => st
  | fuel + 1, (arr, hd) =>
    match hd with
    | none => (arr, none)
    | some i =>
      let e := arr.getD i ⟨none, none⟩
      match e.activation_block_num with
      | some b =>
        if b ≤ block_num then (arr, some i)
        else pop_stack_loop block_num fuel (arr.set i ⟨none, none⟩, e.previous)
      | none => pop_stack_loop block_num fuel (arr.set i ⟨none, none⟩, e.previous)

/-- The tail-truncation loop of `popped_blocks_to` (lines 549-553): while the
log is non-empty and its back is beyond `block_num`, pop the back. -/
def pop_entries_loop (block_num : Nat) (l : List protocol_feature_entry) :
    List protocol_feature_entry :=
  if hne : l = [] then l
  else
    if block_num < (l.getLast hne).activation_block_num then
      pop_entries_loop block_num l.dropLast
    else l
termination_by l.length
decreasing_by
  have : 0 < l.length := List.length_pos.mpr hne
  simp [List.length_dropLast]
  omega

/-- `protocol_feature_manager::popped_blocks_to` (lines 537-554). -/
def protocol_feature_manager.popped_blocks_to (m : protocol_feature_manager)
    (block_num : Nat) : protocol_feature_manager × Option pfm_error :=
  if m._initialized = false then (m, some .not_initialized)
  else
    let st := pop_stack_loop block_num (m._builtin_protocol_features.length + 1)
      (m._builtin_protocol_features, m._head_of_builtin_activation_list)
    ({ m with
        _builtin_protocol_features := st.1,
        _head_of_builtin_activation_list := st.2,
        _activated_protocol_features :=
          pop_entries_loop block_num m._activated_protocol_features },
     none)

/-- The replay loop of `protocol_feature_manager::init` (lines 363-365):
`activate_feature` on each journal record, stopping at the first failure. -/
def protocol_feature_manager.replay (m : protocol_feature_manager) :
    List (digest_type × Nat) → protocol_feature_manager × Option pfm_error
  | [] => (m, none)
  | (d, n) :: rest =>
    match m.activate_feature d n with
    | (m', none) => m'.replay rest
    | (m', some e) => (m', some e)

/-- `protocol_feature_manager::init` (lines 356-368): double-init guard, then
set `_initialized`, replay the journal, and clear the flag via the scoped exit
if the replay throws. -/
def protocol_feature_manager.init (m : protocol_feature_manager)
    (journal : List (digest_type × Nat)) :
    protocol_feature_manager × Option pfm_error :=
  if m._initialized then (m, some .double_init)
  else
    match protocol_feature_manager.replay { m with _initialized := true } journal with
    | (m2, none) => (m2, none)
    | (m2, some e) => ({ m2 with _initialized := false }, some e)

/-- The traversal cursor (`protocol_feature_manager::const_iterator`).
`has_pfm = false` models a singular cursor (null `_pfm`); `_index = none`
models the reserved `end_index` sentinel. -/
structure const_iterator where
  has_pfm : Bool
  _index : Option Nat
deriving DecidableEq, Repr

/-- Result of a cursor operation: a value, a clean `EOS_ASSERT` failure
(`protocol_feature_iterator_exception`), or an unchecked access to an invalid
position (null dereference / out-of-bounds read). -/
inductive iter_result (α : Type) where
  | ok (value : α)
  | misuse
  | invalid_access
deriving DecidableEq, Repr

/-- `const_iterator::get_pointer` (lines 370-374).  The singular/end validity
asserts are commented out in the source, so the function reads the manager's
log unconditionally; an invalid position yields `invalid_access`, not a clean
failure.  Dereference yields the stable catalog reference, modelled as the
entry's digest. -/
def const_iterator.get_pointer (m : protocol_feature_manager)
    (it : const_iterator) : iter_result digest_type :=
  if it.has_pfm = false then .invalid_access
  else
    match it._index with
    | none => .invalid_access
    | some i =>
      match m._activated_protocol_features[i]? with
      | none => .invalid_access
      | some e => .ok e.feature_digest

/-- `const_iterator::activation_ordinal` (lines 376-387). -/
def const_iterator.activation_ordinal (m : protocol_feature_manager)
    (it : const_iterator) : iter_result Nat :=
  if it.has_pfm = false then .misuse
  else
    match it._index with
    | none => .misuse
    | some i => .ok i

/-- `const_iterator::activation_block_num` (lines 389-400). -/
def const_iterator.activation_block_num (m : protocol_feature_manager)
    (it : const_iterator) : iter_result Nat :=
  if it.has_pfm = false then .misuse
  else
    match it._index with
    | none => .misuse
    | some i =>
      match m._activated_protocol_features[i]? with
      | none => .invalid_access
      | some e => .ok e.activation_block_num

/-- `const_iterator::operator++` (lines 402-412). -/
def const_iterator.inc (m : protocol_feature_manager) (it : const_iterator) :
    iter_result const_iterator :=
  if it.has_pfm = false then .misuse
  else
    match it._index with
    | none => .misuse
    | some i =>
      if m._activated_protocol_features.length ≤ i + 1 then .ok ⟨it.has_pfm, none⟩
      else .ok ⟨it.has_pfm, some (i + 1)⟩

/-- `const_iterator::operator--` (lines 414-430). -/
def const_iterator.dec (m : protocol_feature_manager) (it : const_iterator) :
    iter_result const_iterator :=
  if it.has_pfm = false then .misuse
  else
    match it._index with
    | none =>
      if m._activated_protocol_features.length = 0 then .misuse
      else .ok ⟨it.has_pfm, some (m._activated_protocol_features.length - 1)⟩
    | some i =>
      if i = 0 then .misuse
      else .ok ⟨it.has_pfm, some (i - 1)⟩

/-- `protocol_feature_manager::cend`: the end cursor. -/
def protocol_feature_manager.cend (_m : protocol_feature_manager) : const_iterator :=
  ⟨true, none⟩

/-- `protocol_feature_manager::cbegin` (lines 432-438). -/
def protocol_feature_manager.cbegin (m : protocol_feature_manager) : const_iterator :=
  if m._activated_protocol_features.length = 0 then m.cend else ⟨true, some 0⟩

/-- `protocol_feature_manager::at_activation_ordinal` (lines 440-447). -/
def protocol_feature_manager.at_activation_ordinal (m : protocol_feature_manager)
    (activation_ordinal : Nat) : const_iterator :=
  if m._activated_protocol_features.length ≤ activation_ordinal then m.cend
  else ⟨true, some activation_ordinal⟩

/-- The binary search of `std::lower_bound` / `std::upper_bound` over index
range `[first, first + count)`: `advance j` is `comp` applied at index `j`
(`element < value` for `lower_bound`, `element ≤ value` — the negation of
`value < element` — for `upper_bound`); the result is the first index at which
`advance` is `false`, found by the standard halving loop. -/
def std_bound_idx (advance : Nat → Bool) (first count : Nat) : Nat :=
  if h : count = 0 then first
  else
    let step := count / 2
    if advance (first + step) then
      std_bound_idx advance (first + step + 1) (count - (step + 1))
    else
      std_bound_idx advance first step
termination_by count
decreasing_by
  · omega
  · exact Nat.div_lt_self (Nat.pos_of_ne_zero h) (by omega)

/-- The activation block number recorded at ordinal `i` of the log. -/
def protocol_feature_manager.entry_block (m : protocol_feature_manager) (i : Nat) : Nat :=
  (m._activated_protocol_features.getD i ⟨0, 0⟩).activation_block_num

/-- `protocol_feature_manager::lower_bound` (lines 449-462). -/
def protocol_feature_manager.lower_bound (m : protocol_feature_manager)
    (block_num : Nat) : const_iterator :=
  let n := m._activated_protocol_features.length
  let i := std_bound_idx (fun j => decide (m.entry_block j < block_num)) 0 n
  if i = n then m.cend else ⟨true, some i⟩

/-- `protocol_feature_manager::upper_bound` (lines 464-477). -/
def protocol_feature_manager.upper_bound (m : protocol_feature_manager)
    (block_num : Nat) : const_iterator :=
  let n := m._activated_protocol_features.length
  let i := std_bound_idx (fun j => decide (m.entry_block j ≤ block_num)) 0 n
  if i = n then m.cend else ⟨true, some i⟩

/-! ### Abstractions used in the statements and proofs -/

/-- The per-builtin slot value read at code `c` (out-of-range codes read the
sentinel slot). -/
def slot_activation_block_num (m : protocol_feature_manager) (c : Nat) : Option Nat :=
  (m._builtin_protocol_features.getD c ⟨none, none⟩).activation_block_num

/-- The builtin code a log entry resolves to through the catalog. -/
def entry_code (pfs : protocol_feature_set) (e : protocol_feature_entry) : Option Nat :=
  (pfs.find e.feature_digest).bind (fun pf => pf.builtin_feature)

/-- A fresh per-builtin table of `n` sentinel slots. -/
def blank_slots (n : Nat) : List builtin_protocol_feature_entry :=
  List.replicate n ⟨none, none⟩

/-- Pushing one activation `(code, block)` onto the builtin table and the
intrusive LIFO stack, exactly as the mutation block of `activate_feature`
(lines 532-534) does. -/
def push_builtin (st : List builtin_protocol_feature_entry × Option Nat)
    (p : Nat × Nat) : List builtin_protocol_feature_entry × Option Nat :=
  (st.1.set p.1 ⟨some p.2, st.2⟩, some p.1)

/-- The builtin table and stack head obtained by pushing a sequence of
activations onto a fresh table of `n` slots. -/
def push_all (n : Nat) (pairs : List (Nat × Nat)) :
    List builtin_protocol_feature_entry × Option Nat :=
  pairs.foldl push_builtin (blank_slots n, none)

/-- A log entry matches a `(code, block)` pair when the catalog resolves it to
that builtin code, the code indexes the builtin table, and the blocks agree. -/
def entry_matches (pfs : protocol_feature_set) (n : Nat)
    (e : protocol_feature_entry) (p : Nat × Nat) : Prop :=
  entry_code pfs e = some p.1 ∧ p.1 < n ∧ p.2 = e.activation_block_num

/-- The manager invariant: initialized; activation blocks non-decreasing along
the log; and the log projects to a duplicate-free sequence of builtin
activations whose fold reconstructs the builtin slot table and the head of the
intrusive stack (this packages invariants I4-I7 of the specification). -/
def manager_inv (m : protocol_feature_manager) : Prop :=
  m._initialized = true ∧
  List.Pairwise (fun a b => a.activation_block_num ≤ b.activation_block_num)
    m._activated_protocol_features ∧
  ∃ pairs : List (Nat × Nat),
    List.Forall₂
      (entry_matches m._protocol_feature_set m._builtin_protocol_features.length)
      m._activated_protocol_features pairs ∧
    (pairs.map Prod.fst).Nodup ∧
    (m._builtin_protocol_features, m._head_of_builtin_activation_list) =
      push_all m._builtin_protocol_features.length pairs

/-- Manager states reachable by constructing a manager, initializing it
successfully, and running any sequence of successful `activate_feature` /
`popped_blocks_to` calls. -/
inductive Reachable : protocol_feature_manager → Prop where
  | base (pfs : protocol_feature_set) (journal : List (digest_type × Nat))
      (m : protocol_feature_manager) :
      (protocol_feature_manager.make pfs).init journal = (m, none) → Reachable m
  | step_activate (m m' : protocol_feature_manager) (d n : Nat) :
      Reachable m → m.activate_feature d n = (m', none) → Reachable m'
  | step_popped (m m' : protocol_feature_manager) (h : Nat) :
      Reachable m → m.popped_blocks_to h = (m', none) → Reachable m'

/-! ### Concrete fixtures used by the witnesses and counterexamples -/

/-- A builtin feature for code 0 with no dependencies. -/
def sample_featA : builtin_protocol_feature := ⟨111, [], ⟨0, false, true⟩, 0⟩

/-- A builtin feature for code 1 whose dependency digests resolve to builtin
code 0, although the compiled-in spec of code 1 declares no builtin
dependencies. -/
def sample_featB : builtin_protocol_feature := ⟨222, [10], ⟨0, true, true⟩, 1⟩

/-- The catalog after `add_feature` of `sample_featA` under digest 10. -/
def sample_pfs1 : protocol_feature_set :=
  ⟨[⟨10, 111, [], 0, false, true, some 0⟩], [some 10]⟩

/-- The catalog after further `add_feature` of `sample_featB` under digest 20. -/
def sample_pfs2 : protocol_feature_set :=
  ⟨[⟨10, 111, [], 0, false, true, some 0⟩,
    ⟨20, 222, [10], 0, true, true, some 1⟩],
   [some 10, some 20]⟩

/-- A manager over `sample_pfs2` initialized with activations at blocks 100
and 200. -/
def sample_mgr : protocol_feature_manager :=
  ((protocol_feature_manager.make sample_pfs2).init [(10, 100), (20, 200)]).1

/-- A manager over `sample_pfs2` initialized with a single activation at
block 100. -/
def sample_mgr1 : protocol_feature_manager :=
  ((protocol_feature_manager.make sample_pfs2).init [(10, 100)]).1

/-- A four-builtin catalog used to exercise the binary searches. -/
def sample_pfs4 : protocol_feature_set :=
  ⟨[⟨1, 0, [], 0, false, true, some 0⟩, ⟨2, 0, [], 0, false, true, some 1⟩,
    ⟨3, 0, [], 0, false, true, some 2⟩, ⟨4, 0, [], 0, false, true, some 3⟩],
   [some 1, some 2, some 3, some 4]⟩

/-- A manager with activation blocks 10, 20, 20, 30 (scenario 6 of the
specification). -/
def sample_mgr4 : protocol_feature_manager :=
  ((protocol_feature_manager.make sample_pfs4).init
    [(1, 10), (2, 20), (3, 20), (4, 30)]).1

/-- A codename table whose second builtin declares a builtin dependency on the
first (scenario 2 of the specification). -/
def sample_codenames_dep : List (Nat × builtin_protocol_feature_spec) :=
  [(0, ⟨"A", 0, [], ⟨0, false, true⟩⟩),
   (1, ⟨"B", 0, [0], ⟨0, false, true⟩⟩)]

/-- A builtin feature for code 1 constructed with an empty dependency-digest
set. -/
def sample_featB_nodeps : builtin_protocol_feature := ⟨0, [], ⟨0, false, true⟩, 1⟩

/-- What claim P4/I6 asserts of `popped_blocks_to(h0)`: it succeeds, every
remaining log entry was activated at a block `≤ h0`, and a builtin slot is
non-sentinel exactly when an entry resolving to that builtin remains. -/
def popped_spec_holds (m : protocol_feature_manager) (h0 : Nat) : Prop :=
  ∃ m', m.popped_blocks_to h0 = (m', none) ∧
    (∀ e ∈ m'._activated_protocol_features, e.activation_block_num ≤ h0) ∧
    (∀ c : Nat, slot_activation_block_num m' c ≠ none ↔
      ∃ e ∈ m'._activated_protocol_features,
        entry_code m'._protocol_feature_set e = some c)

/-- What claim P5 asserts of `lower_bound`/`upper_bound` at argument `b`:
each returns the cursor at the first ordinal whose activation block is `≥ b`
(respectively `> b`), or the end cursor when every block is `< b`
(respectively `≤ b`). -/
def bounds_spec_holds (m : protocol_feature_manager) (b : Nat) : Prop :=
  ((∃ i, m.lower_bound b = ⟨true, some i⟩ ∧
      i < m._activated_protocol_features.length ∧ b ≤ m.entry_block i ∧
      ∀ j < i, m.entry_block j < b) ∨
    (m.lower_bound b = m.cend ∧
      ∀ j < m._activated_protocol_features.length, m.entry_block j < b)) ∧
  ((∃ i, m.upper_bound b = ⟨true, some i⟩ ∧
      i < m._activated_protocol_features.length ∧ b < m.entry_block i ∧
      ∀ j < i, m.entry_block j ≤ b) ∨
    (m.upper_bound b = m.cend ∧
      ∀ j < m._activated_protocol_features.length, m.entry_block j ≤ b))

/-! ### Helper lemmas: the builtin table as a fold of pushes -/

theorem push_all_concat (n : Nat) (l : List (Nat × Nat)) (p : Nat × Nat) :
    push_all n (l ++ [p]) = push_builtin (push_all n l) p := by
  simp [push_all, List.foldl_append]

theorem push_all_fst_length (n : Nat) (l : List (Nat × Nat)) :
    (push_all n l).1.length = n := by
  induction l using List.reverseRecOn with
  | nil => simp [push_all, blank_slots]
  | append_singleton l p ih => simp [push_all_concat, push_builtin, ih]

theorem blank_slots_getD (n c : Nat) :
    (blank_slots n).getD c ⟨none, none⟩ = ⟨none, none⟩ := by
  rcases Nat.lt_or_ge c n with h | h
  · simp [blank_slots, List.getD_eq_getElem?_getD, List.getElem?_replicate, h]
  · have : (blank_slots n)[c]? = none := by
      apply List.getElem?_eq_none
      simp [blank_slots]
      omega
    simp [List.getD_eq_getElem?_getD, this]

theorem entry_getD_set_ne (arr : List builtin_protocol_feature_entry) (i c : Nat)
    (v d : builtin_protocol_feature_entry) (h : i ≠ c) :
    (arr.set i v).getD c d = arr.getD c d := by
  simp [List.getD_eq_getElem?_getD, List.getElem?_set_ne h]

theorem entry_getD_set_self (arr : List builtin_protocol_feature_entry) (c : Nat)
    (v d : builtin_protocol_feature_entry) (h : c < arr.length) :
    (arr.set c v).getD c d = v := by
  simp [List.getD_eq_getElem?_getD, List.getElem?_set_eq_of_lt v h]

theorem entry_set_cancel (arr : List builtin_protocol_feature_entry) (i : Nat)
    (hv : arr.getD i ⟨none, none⟩ = ⟨none, none⟩) :
    arr.set i ⟨none, none⟩ = arr := by
  apply List.ext_getElem?
  intro j
  by_cases hij : i = j
  · subst hij
    by_cases hlen : i < arr.length
    · rw [List.getElem?_set_eq_of_lt _ hlen]
      rw [List.getD_eq_getElem?_getD, List.getElem?_eq_getElem hlen] at hv
      rw [List.getElem?_eq_getElem hlen]
      simpa using hv.symm
    · rw [List.set_eq_of_length_le (by omega)]
  · rw [List.getElem?_set_ne hij]

theorem push_all_slot_not_mem (n : Nat) (l : List (Nat × Nat)) (c : Nat)
    (hc : c ∉ l.map Prod.fst) :
    (push_all n l).1.getD c ⟨none, none⟩ = ⟨none, none⟩ := by
  induction l using List.reverseRecOn with
  | nil => exact blank_slots_getD n c
  | append_singleton l p ih =>
    simp only [List.map_append, List.map_cons, List.map_nil, List.mem_append,
      List.mem_singleton] at hc
    push_neg at hc
    rw [push_all_concat]
    show ((push_all n l).1.set p.1 _).getD c _ = _
    rw [entry_getD_set_ne _ _ _ _ _ (fun h => hc.2 h.symm)]
    exact ih hc.1

theorem push_all_slot_concat_self (n : Nat) (l : List (Nat × Nat)) (c b : Nat)
    (hc : c < n) :
    (push_all n (l ++ [(c, b)])).1.getD c ⟨none, none⟩ =
      ⟨some b, (push_all n l).2⟩ := by
  rw [push_all_concat]
  exact entry_getD_set_self _ _ _ _ (by rw [push_all_fst_length]; exact hc)

theorem push_all_slot_abn_of_mem (n : Nat) (l : List (Nat × Nat)) (c b : Nat)
    (hnd : (l.map Prod.fst).Nodup) (hlt : ∀ p ∈ l, p.1 < n) (hm : (c, b) ∈ l) :
    ((push_all n l).1.getD c ⟨none, none⟩).activation_block_num = some b := by
  induction l using List.reverseRecOn with
  | nil => simp at hm
  | append_singleton l p ih =>
    rw [List.map_append] at hnd
    have hnd' := hnd
    rw [List.nodup_append] at hnd'
    rcases List.mem_append.mp hm with hm' | hm'
    · have hcl : c ∈ l.map Prod.fst := List.mem_map.mpr ⟨(c, b), hm', rfl⟩
      have hpc : p.1 ≠ c := by
        intro h
        exact hnd'.2.2 hcl (by simp [h])
      rw [push_all_concat]
      show (((push_all n l).1.set p.1 _).getD c _).activation_block_num = _
      rw [entry_getD_set_ne _ _ _ _ _ hpc]
      exact ih hnd'.1 (fun q hq => hlt q (List.mem_append_left _ hq)) hm'
    · have hp : (c, b) = p := by simpa using hm'
      subst hp
      rw [push_all_slot_concat_self n l c b
        (hlt (c, b) (List.mem_append_right _ (by simp)))]

theorem push_all_slot_abn_iff (n : Nat) (l : List (Nat × Nat)) (c b : Nat)
    (hnd : (l.map Prod.fst).Nodup) (hlt : ∀ p ∈ l, p.1 < n) :
    ((push_all n l).1.getD c ⟨none, none⟩).activation_block_num = some b ↔
      (c, b) ∈ l := by
  constructor
  · intro h
    by_cases hc : c ∈ l.map Prod.fst
    · rcases List.mem_map.mp hc with ⟨p, hp, hpc⟩
      have : p = (c, p.2) := by
        cases p
        simp at hpc
        simp [hpc]
      rw [this] at hp
      have := push_all_slot_abn_of_mem n l c p.2 hnd hlt hp
      rw [this] at h
      cases h
      exact hp
    · rw [push_all_slot_not_mem n l c hc] at h
      simp at h
  · exact push_all_slot_abn_of_mem n l c b hnd hlt

theorem push_all_slot_abn_ne_none_iff (n : Nat) (l : List (Nat × Nat)) (c : Nat)
    (hnd : (l.map Prod.fst).Nodup) (hlt : ∀ p ∈ l, p.1 < n) :
    ((push_all n l).1.getD c ⟨none, none⟩).activation_block_num ≠ none ↔
      c ∈ l.map Prod.fst := by
  constructor
  · intro h
    by_contra hc
    rw [push_all_slot_not_mem n l c hc] at h
    simp at h
  · intro hc
    rcases List.mem_map.mp hc with ⟨p, hp, hpc⟩
    have : (c, p.2) ∈ l := by
      cases p
      simp at hpc
      subst hpc
      exact hp
    rw [push_all_slot_abn_of_mem n l c p.2 hnd hlt this]
    simp

/-! ### Helper lemmas: the two loops of `popped_blocks_to` -/

theorem pop_entries_loop_no_pop (h : Nat) (l : List protocol_feature_entry)
    (hl : ∀ e ∈ l, e.activation_block_num ≤ h) :
    pop_entries_loop h l = l := by
  unfold pop_entries_loop
  split
  · rfl
  · next hne =>
    rw [if_neg]
    have := hl (l.getLast hne) (List.getLast_mem hne)
    omega

theorem pop_entries_loop_concat (h : Nat) (l : List protocol_feature_entry)
    (p : protocol_feature_entry) (hp : h < p.activation_block_num) :
    pop_entries_loop h (l ++ [p]) = pop_entries_loop h l := by
  conv_lhs => rw [pop_entries_loop]
  rw [dif_neg (by simp)]
  simp only [List.getLast_concat]
  rw [if_pos hp, List.dropLast_concat]

theorem pop_entries_loop_eq (h : Nat) (l₁ l₂ : List protocol_feature_entry)
    (hlo : ∀ e ∈ l₁, e.activation_block_num ≤ h)
    (hhi : ∀ e ∈ l₂, h < e.activation_block_num) :
    pop_entries_loop h (l₁ ++ l₂) = l₁ := by
  induction l₂ using List.reverseRecOn with
  | nil => rw [List.append_nil]; exact pop_entries_loop_no_pop h l₁ hlo
  | append_singleton l₂' p ih =>
    rw [← List.append_assoc, pop_entries_loop_concat h _ p (hhi p (by simp))]
    exact ih (fun e he => hhi e (by simp [he]))

theorem pop_stack_loop_stop (h n fuel : Nat) (l : List (Nat × Nat))
    (hlt : ∀ p ∈ l, p.1 < n) (hlo : ∀ p ∈ l, p.2 ≤ h) :
    pop_stack_loop h (fuel + 1) (push_all n l) = push_all n l := by
  cases l using List.reverseRecOn with
  | nil =>
    show pop_stack_loop h (fuel + 1) (push_all n []) = push_all n []
    simp [push_all, pop_stack_loop]
  | append_singleton l p =>
    have hpn : p.1 < n := hlt p (by simp)
    have hset : ((push_all n l).1.set p.1
        ⟨some p.2, (push_all n l).2⟩).getD p.1 ⟨none, none⟩ =
        ⟨some p.2, (push_all n l).2⟩ :=
      entry_getD_set_self _ _ _ _ (by rw [push_all_fst_length]; exact hpn)
    rw [push_all_concat]
    show pop_stack_loop h (fuel + 1) (push_builtin (push_all n l) p) =
      push_builtin (push_all n l) p
    simp only [push_builtin, pop_stack_loop]
    rw [hset]
    dsimp only
    rw [if_pos (hlo p (by simp))]

theorem pop_stack_loop_concat (h n fuel : Nat) (l : List (Nat × Nat))
    (p : Nat × Nat)
    (hnd : ((l ++ [p]).map Prod.fst).Nodup) (hlt : ∀ q ∈ l ++ [p], q.1 < n)
    (hp : h < p.2) :
    pop_stack_loop h (fuel + 1) (push_all n (l ++ [p])) =
      pop_stack_loop h fuel (push_all n l) := by
  have hpn : p.1 < n := hlt p (by simp)
  have hset : ((push_all n l).1.set p.1
      ⟨some p.2, (push_all n l).2⟩).getD p.1 ⟨none, none⟩ =
      ⟨some p.2, (push_all n l).2⟩ :=
    entry_getD_set_self _ _ _ _ (by rw [push_all_fst_length]; exact hpn)
  have hnotmem : p.1 ∉ l.map Prod.fst := by
    rw [List.map_append, List.nodup_append] at hnd
    intro hc
    exact hnd.2.2 hc (by simp)
  have hcancel : ((push_all n l).1.set p.1
      ⟨some p.2, (push_all n l).2⟩).set p.1 ⟨none, none⟩ = (push_all n l).1 := by
    rw [List.set_set]
    exact entry_set_cancel _ _ (push_all_slot_not_mem n l p.1 hnotmem)
  rw [push_all_concat]
  show pop_stack_loop h (fuel + 1) (push_builtin (push_all n l) p) = _
  simp only [push_builtin, pop_stack_loop]
  rw [hset]
  dsimp only
  rw [if_neg (by omega), hcancel]

theorem pop_stack_loop_pops (h n : Nat) (l₁ l₂ : List (Nat × Nat)) :
    ∀ fuel : Nat, ((l₁ ++ l₂).map Prod.fst).Nodup → (∀ p ∈ l₁ ++ l₂, p.1 < n) →
    (∀ p ∈ l₂, h < p.2) → (∀ p ∈ l₁, p.2 ≤ h) → l₂.length + 1 ≤ fuel →
    pop_stack_loop h fuel (push_all n (l₁ ++ l₂)) = push_all n l₁ := by
  induction l₂ using List.reverseRecOn with
  | nil =>
    intro fuel hnd hlt hhi hlo hfuel
    rw [List.append_nil]
    obtain ⟨f, rfl⟩ : ∃ f, fuel = f + 1 := ⟨fuel - 1, by omega⟩
    exact pop_stack_loop_stop h n f l₁ (by simpa using hlt) hlo
  | append_singleton l₂' p ih =>
    intro fuel hnd hlt hhi hlo hfuel
    obtain ⟨f, rfl⟩ : ∃ f, fuel = f + 1 := ⟨fuel - 1, by omega⟩
    rw [← List.append_assoc]
    rw [pop_stack_loop_concat h n f (l₁ ++ l₂') p
      (by rw [List.append_assoc]; exact hnd)
      (by intro q hq; exact hlt q (by rw [List.append_assoc] at hq; exact hq))
      (hhi p (by simp))]
    exact ih f
      (by
        have := hnd
        rw [← List.append_assoc, List.map_append, List.nodup_append] at this
        exact this.1)
      (fun q hq => hlt q (by
        rcases List.mem_append.mp hq with hq | hq
        · exact List.mem_append_left _ hq
        · exact List.mem_append_right _ (List.mem_append_left _ hq)))
      (fun q hq => hhi q (List.mem_append_left _ hq))
      hlo (by simp at hfuel ⊢; omega)

/-! ### Helper lemmas: `Forall₂` and sortedness -/

theorem forall₂_append {α β : Type} {R : α → β → Prop} {l₁ u₁ : List α}
    {l₂ u₂ : List β} (h : List.Forall₂ R l₁ l₂) (h2 : List.Forall₂ R u₁ u₂) :
    List.Forall₂ R (l₁ ++ u₁) (l₂ ++ u₂) := by
  induction h with
  | nil => simpa using h2
  | cons hR hF ih => exact List.Forall₂.cons hR ih

theorem forall₂_mem_right {α β : Type} {R : α → β → Prop} {l₁ : List α}
    {l₂ : List β} (h : List.Forall₂ R l₁ l₂) {p : β} (hp : p ∈ l₂) :
    ∃ e ∈ l₁, R e p := by
  induction h with
  | nil => simp at hp
  | cons hR hF ih =>
    rcases List.mem_cons.mp hp with rfl | hp
    · exact ⟨_, by simp, hR⟩
    · rcases ih hp with ⟨e, he, hR'⟩
      exact ⟨e, by simp [he], hR'⟩

theorem forall₂_mem_left {α β : Type} {R : α → β → Prop} {l₁ : List α}
    {l₂ : List β} (h : List.Forall₂ R l₁ l₂) {e : α} (he : e ∈ l₁) :
    ∃ p ∈ l₂, R e p := by
  induction h with
  | nil => simp at he
  | cons hR hF ih =>
    rcases List.mem_cons.mp he with rfl | he
    · exact ⟨_, by simp, hR⟩
    · rcases ih he with ⟨p, hp, hR'⟩
      exact ⟨p, by simp [hp], hR'⟩

theorem sorted_all_le_getLast (l : List protocol_feature_entry)
    (hs : List.Pairwise
      (fun a b => a.activation_block_num ≤ b.activation_block_num) l)
    (b : Nat)
    (hlast : ∀ x ∈ l.getLast?, x.activation_block_num ≤ b) :
    ∀ e ∈ l, e.activation_block_num ≤ b := by
  cases l using List.reverseRecOn with
  | nil => simp
  | append_singleton l' x =>
    have hx : x.activation_block_num ≤ b := hlast x (by simp)
    intro e he
    rcases List.mem_append.mp he with he | he
    · have hp := (List.pairwise_append.mp hs).2.2 e he x (by simp)
      omega
    · have : e = x := by simpa using he
      subst this
      exact hx

theorem sorted_dropWhile_gt (h0 : Nat) (l : List protocol_feature_entry)
    (hs : List.Pairwise
      (fun a b => a.activation_block_num ≤ b.activation_block_num) l) :
    ∀ e ∈ l.dropWhile (fun e => decide (e.activation_block_num ≤ h0)),
      h0 < e.activation_block_num := by
  induction l with
  | nil => simp
  | cons a l ih =>
    rw [List.dropWhile_cons]
    split
    · exact ih (List.pairwise_cons.mp hs).2
    · next hcond =>
      intro e he
      rcases List.mem_cons.mp he with rfl | he
      · simp at hcond
        omega
      · have hle := (List.pairwise_cons.mp hs).1 e he
        simp at hcond
        omega

/-! ### Helper lemmas: `activate_feature` -/

theorem activate_feature_success (m m' : protocol_feature_manager)
    (d n0 : Nat) (h : m.activate_feature d n0 = (m', none)) :
    m._initialized = true ∧
    ∃ pf indx, m._protocol_feature_set.find d = some pf ∧
      pf.builtin_feature = some indx ∧
      indx < m._builtin_protocol_features.length ∧
      (m._builtin_protocol_features.getD indx ⟨none, none⟩).activation_block_num
        = none ∧
      (∀ lastE ∈ m._activated_protocol_features.getLast?,
        lastE.activation_block_num ≤ n0) ∧
      m' = { m with
        _activated_protocol_features :=
          m._activated_protocol_features ++ [⟨d, n0⟩],
        _builtin_protocol_features :=
          m._builtin_protocol_features.set indx
            ⟨some n0, m._head_of_builtin_activation_list⟩,
        _head_of_builtin_activation_list := some indx } := by
  unfold protocol_feature_manager.activate_feature at h
  split at h
  · simp at h
  · next hinit =>
    have hinit' : m._initialized = true := by
      revert hinit
      cases m._initialized <;> simp
    split at h
    · simp at h
    · next pf hfind =>
      dsimp only at h
      split at h
      · simp at h
      · next hmono =>
        have hmono' : ∀ lastE ∈ m._activated_protocol_features.getLast?,
            lastE.activation_block_num ≤ n0 := by
          intro lastE hE
          rw [Option.mem_def] at hE
          rw [hE] at hmono
          simpa using hmono
        split at h
        · simp at h
        · next indx hbi =>
          split at h
          · simp at h
          · next hlen =>
            split at h
            · simp at h
            · next hslot =>
              have hm' := congrArg Prod.fst h
              exact ⟨hinit', pf, indx, hfind, hbi, by omega,
                not_not.mp hslot, hmono', hm'.symm⟩

theorem activate_feature_err_state (m : protocol_feature_manager)
    (d n0 : Nat) (m' : protocol_feature_manager) (e : pfm_error)
    (h : m.activate_feature d n0 = (m', some e)) : m' = m := by
  unfold protocol_feature_manager.activate_feature at h
  split at h
  · exact (congrArg Prod.fst h).symm
  · split at h
    · exact (congrArg Prod.fst h).symm
    · dsimp only at h
      split at h
      · exact (congrArg Prod.fst h).symm
      · split at h
        · exact (congrArg Prod.fst h).symm
        · split at h
          · exact (congrArg Prod.fst h).symm
          · split at h
            · exact (congrArg Prod.fst h).symm
            · simp at h

/-! ### Helper lemmas: preservation of the manager invariant -/

theorem pairs_fst_lt (pfs : protocol_feature_set) (n : Nat)
    (A : List protocol_feature_entry) (pairs : List (Nat × Nat))
    (hF : List.Forall₂ (entry_matches pfs n) A pairs) :
    ∀ p ∈ pairs, p.1 < n := by
  intro p hp
  rcases forall₂_mem_right hF hp with ⟨e, -, hR⟩
  exact hR.2.1

theorem pairs_length_le (n : Nat) (pairs : List (Nat × Nat))
    (hnd : (pairs.map Prod.fst).Nodup) (hlt : ∀ p ∈ pairs, p.1 < n) :
    pairs.length ≤ n := by
  have hsub : pairs.map Prod.fst ⊆ List.range n := by
    intro c hc
    rcases List.mem_map.mp hc with ⟨p, hp, rfl⟩
    exact List.mem_range.mpr (hlt p hp)
  have := (hnd.subperm hsub).length_le
  simpa using this

theorem manager_inv_activate (m m' : protocol_feature_manager) (d n0 : Nat)
    (hInv : manager_inv m) (hact : m.activate_feature d n0 = (m', none)) :
    manager_inv m' := by
  obtain ⟨hinit, hsort, pairs, hF, hnd, hpush⟩ := hInv
  obtain ⟨-, pf, indx, hfind, hbi, hlen, hslot, hmono, rfl⟩ :=
    activate_feature_success m m' d n0 hact
  have hlt := pairs_fst_lt _ _ _ _ hF
  have hbuiltin_eq : m._builtin_protocol_features =
      (push_all m._builtin_protocol_features.length pairs).1 :=
    congrArg Prod.fst hpush
  have hhead_eq : m._head_of_builtin_activation_list =
      (push_all m._builtin_protocol_features.length pairs).2 :=
    congrArg Prod.snd hpush
  have hnotmem : indx ∉ pairs.map Prod.fst := by
    intro hmem
    have := (push_all_slot_abn_ne_none_iff
      m._builtin_protocol_features.length pairs indx hnd hlt).mpr hmem
    rw [← hbuiltin_eq] at this
    exact this hslot
  refine ⟨hinit, ?_, pairs ++ [(indx, n0)], ?_, ?_, ?_⟩
  · show List.Pairwise _ (m._activated_protocol_features ++ [(⟨d, n0⟩ : protocol_feature_entry)])
    rw [List.pairwise_append]
    refine ⟨hsort, by simp, ?_⟩
    intro a ha b hb
    have hb' : b = (⟨d, n0⟩ : protocol_feature_entry) := by simpa using hb
    subst hb'
    exact sorted_all_le_getLast _ hsort n0 hmono a ha
  · show List.Forall₂ _ (m._activated_protocol_features ++ [⟨d, n0⟩]) _
    have hn' : (m._builtin_protocol_features.set indx
        ⟨some n0, m._head_of_builtin_activation_list⟩).length =
        m._builtin_protocol_features.length := by simp
    rw [hn']
    refine forall₂_append hF ?_
    refine List.Forall₂.cons ⟨?_, ?_, rfl⟩ List.Forall₂.nil
    · show entry_code m._protocol_feature_set ⟨d, n0⟩ = some indx
      unfold entry_code
      show (m._protocol_feature_set.find d).bind _ = some indx
      rw [hfind]
      simpa using hbi
    · exact hlen
  · simp only [List.map_append, List.map_cons, List.map_nil]
    rw [List.nodup_append]
    exact ⟨hnd, by simp, by
      intro a ha hb
      have : a = indx := by simpa using hb
      subst this
      exact hnotmem ha⟩
  · show (m._builtin_protocol_features.set indx
        ⟨some n0, m._head_of_builtin_activation_list⟩, some indx) = _
    have hn' : (m._builtin_protocol_features.set indx
        ⟨some n0, m._head_of_builtin_activation_list⟩).length =
        m._builtin_protocol_features.length := by simp
    rw [hn', push_all_concat]
    unfold push_builtin
    rw [← hbuiltin_eq, ← hhead_eq]

theorem manager_inv_replay : ∀ (j : List (digest_type × Nat))
    (m m' : protocol_feature_manager), manager_inv m →
    m.replay j = (m', none) → manager_inv m' := by
  intro j
  induction j with
  | nil =>
    intro m m' hI h
    unfold protocol_feature_manager.replay at h
    have hm : m = m' := by simpa using congrArg Prod.fst h
    exact hm ▸ hI
  | cons p rest ih =>
    intro m m' hI h
    obtain ⟨d, n⟩ := p
    unfold protocol_feature_manager.replay at h
    split at h
    · next m'' heq => exact ih m'' m' (manager_inv_activate m m'' d n hI heq) h
    · simp at h

theorem manager_inv_init (pfs : protocol_feature_set)
    (j : List (digest_type × Nat)) (m' : protocol_feature_manager)
    (h : (protocol_feature_manager.make pfs).init j = (m', none)) :
    manager_inv m' := by
  unfold protocol_feature_manager.init at h
  rw [if_neg (by simp [protocol_feature_manager.make])] at h
  split at h
  · next m2 heq =>
    have hm2 : m2 = m' := by simpa using congrArg Prod.fst h
    subst hm2
    refine manager_inv_replay j _ m2 ?_ heq
    refine ⟨rfl, by simp [protocol_feature_manager.make], [], List.Forall₂.nil,
      by simp, ?_⟩
    simp [protocol_feature_manager.make, push_all, blank_slots]
  · simp at h

theorem manager_inv_popped (m m' : protocol_feature_manager) (h0 : Nat)
    (hInv : manager_inv m) (hpop : m.popped_blocks_to h0 = (m', none)) :
    manager_inv m' ∧
    m'._activated_protocol_features =
      m._activated_protocol_features.takeWhile
        (fun e => decide (e.activation_block_num ≤ h0)) ∧
    m'._protocol_feature_set = m._protocol_feature_set := by
  obtain ⟨hinit, hsort, pairs, hF, hnd, hpush⟩ := hInv
  have hlt := pairs_fst_lt _ _ _ _ hF
  set n := m._builtin_protocol_features.length with hn
  set A := m._activated_protocol_features with hA
  set pr := fun (e : protocol_feature_entry) =>
    decide (e.activation_block_num ≤ h0) with hpr
  have hsplitA : A.takeWhile pr ++ A.dropWhile pr = A :=
    List.takeWhile_append_dropWhile pr A
  have hlo : ∀ e ∈ A.takeWhile pr, e.activation_block_num ≤ h0 := by
    intro e he
    have := List.mem_takeWhile_imp he
    simpa [hpr] using this
  have hhi : ∀ e ∈ A.dropWhile pr, h0 < e.activation_block_num :=
    sorted_dropWhile_gt h0 A hsort
  set k := (A.takeWhile pr).length with hk
  have htakeA : A.take k = A.takeWhile pr := by
    conv_lhs => rw [← hsplitA]
    exact List.take_left _ _
  have hdropA : A.drop k = A.dropWhile pr := by
    conv_lhs => rw [← hsplitA]
    exact List.drop_left _ _
  have hF1 : List.Forall₂ (entry_matches m._protocol_feature_set n)
      (A.takeWhile pr) (pairs.take k) := by
    have := List.forall₂_take k hF
    rwa [htakeA] at this
  have hF2 : List.Forall₂ (entry_matches m._protocol_feature_set n)
      (A.dropWhile pr) (pairs.drop k) := by
    have := List.forall₂_drop k hF
    rwa [hdropA] at this
  have hsplitP : pairs.take k ++ pairs.drop k = pairs := List.take_append_drop _ _
  have hlt1 : ∀ p ∈ pairs.take k, p.1 < n := fun p hp =>
    hlt p (by rw [← hsplitP]; exact List.mem_append_left _ hp)
  have hhiP : ∀ p ∈ pairs.drop k, h0 < p.2 := by
    intro p hp
    rcases forall₂_mem_right hF2 hp with ⟨e, he, hR⟩
    rw [hR.2.2]
    exact hhi e he
  have hloP : ∀ p ∈ pairs.take k, p.2 ≤ h0 := by
    intro p hp
    rcases forall₂_mem_right hF1 hp with ⟨e, he, hR⟩
    rw [hR.2.2]
    exact hlo e he
  have hnd1 : ((pairs.take k).map Prod.fst).Nodup :=
    List.Nodup.sublist (List.Sublist.map Prod.fst (List.take_sublist k pairs)) hnd
  have hfuel : (pairs.drop k).length + 1 ≤ n + 1 := by
    have h1 : pairs.length ≤ n := pairs_length_le n pairs hnd hlt
    have h2 : (pairs.drop k).length = pairs.length - k := List.length_drop _ _
    omega
  have hstack : pop_stack_loop h0 (n + 1)
      (m._builtin_protocol_features, m._head_of_builtin_activation_list) =
      push_all n (pairs.take k) := by
    rw [hpush]
    conv_lhs => rw [← hsplitP]
    exact pop_stack_loop_pops h0 n (pairs.take k) (pairs.drop k) (n + 1)
      (by rw [hsplitP]; exact hnd) (by rw [hsplitP]; exact hlt) hhiP hloP hfuel
  have hentries : pop_entries_loop h0 A = A.takeWhile pr := by
    conv_lhs => rw [← hsplitA]
    exact pop_entries_loop_eq h0 _ _ hlo hhi
  unfold protocol_feature_manager.popped_blocks_to at hpop
  rw [if_neg (by simp [hinit])] at hpop
  dsimp only at hpop
  have hm' : m' = { m with
      _builtin_protocol_features := (pop_stack_loop h0 (n + 1)
        (m._builtin_protocol_features, m._head_of_builtin_activation_list)).1,
      _head_of_builtin_activation_list := (pop_stack_loop h0 (n + 1)
        (m._builtin_protocol_features, m._head_of_builtin_activation_list)).2,
      _activated_protocol_features := pop_entries_loop h0 A } :=
    (congrArg Prod.fst hpop).symm
  rw [hstack, hentries] at hm'
  subst hm'
  refine ⟨⟨hinit, ?_, pairs.take k, ?_, hnd1, ?_⟩, rfl, rfl⟩
  · show List.Pairwise _ (A.takeWhile pr)
    exact List.Pairwise.sublist (List.takeWhile_sublist _) hsort
  · show List.Forall₂
      (entry_matches m._protocol_feature_set (push_all n (pairs.take k)).1.length)
      (A.takeWhile pr) (pairs.take k)
    rw [push_all_fst_length]
    exact hF1
  · show ((push_all n (pairs.take k)).1, (push_all n (pairs.take k)).2) =
      push_all (push_all n (pairs.take k)).1.length (pairs.take k)
    rw [push_all_fst_length]

theorem reachable_inv (m : protocol_feature_manager) (h : Reachable m) :
    manager_inv m := by
  induction h with
  | base pfs j m h => exact manager_inv_init pfs j m h
  | step_activate m m' d n hR hact ih => exact manager_inv_activate m m' d n ih hact
  | step_popped m m' h0 hR hpop ih => exact (manager_inv_popped m m' h0 ih hpop).1

/-! ### Helper lemmas: `is_builtin_activated` and the slot table -/

theorem is_builtin_activated_slot (m : protocol_feature_manager) (c h0 : Nat) :
    m.is_builtin_activated c h0 = true ↔
      ∃ b, slot_activation_block_num m c = some b ∧ b ≤ h0 := by
  unfold protocol_feature_manager.is_builtin_activated slot_activation_block_num
  split
  · next hlen =>
    rw [List.getD_eq_default _ _ hlen]
    simp
  · split
    · next habs =>
      rw [habs]
      simp
    · next b habs =>
      rw [habs]
      simp

theorem inv_slot_some_iff (m : protocol_feature_manager)
    (hInv : manager_inv m) (c b : Nat) :
    slot_activation_block_num m c = some b ↔
      ∃ e ∈ m._activated_protocol_features,
        entry_code m._protocol_feature_set e = some c ∧
        e.activation_block_num = b := by
  obtain ⟨-, -, pairs, hF, hnd, hpush⟩ := hInv
  have hlt := pairs_fst_lt _ _ _ _ hF
  unfold slot_activation_block_num
  rw [show m._builtin_protocol_features =
    (push_all m._builtin_protocol_features.length pairs).1 from
    congrArg Prod.fst hpush]
  rw [push_all_slot_abn_iff _ pairs c b hnd hlt]
  constructor
  · intro hm
    rcases forall₂_mem_right hF hm with ⟨e, he, hR⟩
    exact ⟨e, he, hR.1, hR.2.2.symm⟩
  · rintro ⟨e, he, hcode, habn⟩
    rcases forall₂_mem_left hF he with ⟨p, hp, hR⟩
    have h1 : p.1 = c := by
      rw [hR.1] at hcode
      simpa using hcode
    have h2 : p.2 = b := by rw [hR.2.2, habn]
    have : p = (c, b) := by
      cases p
      simp at h1 h2
      simp [h1, h2]
    rw [← this]
    exact hp

theorem inv_is_builtin_activated_iff (m : protocol_feature_manager)
    (hInv : manager_inv m) (c h0 : Nat) :
    m.is_builtin_activated c h0 = true ↔
      ∃ e ∈ m._activated_protocol_features,
        entry_code m._protocol_feature_set e = some c ∧
        e.activation_block_num ≤ h0 := by
  rw [is_builtin_activated_slot]
  constructor
  · rintro ⟨b, hb, hble⟩
    rcases (inv_slot_some_iff m hInv c b).mp hb with ⟨e, he, hcode, habn⟩
    exact ⟨e, he, hcode, by omega⟩
  · rintro ⟨e, he, hcode, hle⟩
    exact ⟨e.activation_block_num,
      (inv_slot_some_iff m hInv c e.activation_block_num).mpr
        ⟨e, he, hcode, rfl⟩, hle⟩

theorem inv_slot_ne_none_iff (m : protocol_feature_manager)
    (hInv : manager_inv m) (c : Nat) :
    slot_activation_block_num m c ≠ none ↔
      ∃ e ∈ m._activated_protocol_features,
        entry_code m._protocol_feature_set e = some c := by
  constructor
  · intro hne
    rcases Option.ne_none_iff_exists'.mp hne with ⟨b, hb⟩
    rcases (inv_slot_some_iff m hInv c b).mp hb with ⟨e, he, hcode, -⟩
    exact ⟨e, he, hcode⟩
  · rintro ⟨e, he, hcode⟩
    have := (inv_slot_some_iff m hInv c e.activation_block_num).mpr
      ⟨e, he, hcode, rfl⟩
    rw [this]
    simp

/-! ### Helper lemmas: the binary searches -/

theorem std_bound_idx_correct (f : Nat → Bool) (N : Nat)
    (mono : ∀ i j, i ≤ j → j < N → f j = true → f i = true) :
    ∀ count first, first + count ≤ N →
    (∀ j, j < first → f j = true) →
    (∀ j, first + count ≤ j → j < N → f j = false) →
    (std_bound_idx f first count ≤ N ∧
     (∀ j, j < std_bound_idx f first count → f j = true) ∧
     (∀ j, std_bound_idx f first count ≤ j → j < N → f j = false)) := by
  intro count
  induction count using Nat.strong_induction_on with
  | _ count ih =>
    intro first hle hlow hhigh
    unfold std_bound_idx
    split
    · next hc =>
      subst hc
      exact ⟨by omega, fun j hj => hlow j hj, fun j h1 h2 => hhigh j (by omega) h2⟩
    · next hc =>
      dsimp only
      split
      · next hadv =>
        apply ih (count - (count / 2 + 1)) (by omega) (first + count / 2 + 1)
          (by omega) ?_ ?_
        · intro j hj
          by_cases hjf : j < first
          · exact hlow j hjf
          · exact mono j (first + count / 2) (by omega) (by omega) hadv
        · intro j h1 h2
          exact hhigh j (by omega) h2
      · next hadv =>
        apply ih (count / 2)
          (Nat.div_lt_self (Nat.pos_of_ne_zero hc) (by omega)) first
          (by omega) hlow ?_
        intro j h1 h2
        by_cases hj : first + count ≤ j
        · exact hhigh j hj h2
        · cases hfj : f j
          · rfl
          · exact absurd (mono (first + count / 2) j (by omega) h2 hfj)
              (by simp [hadv])

theorem entry_block_eq_getElem (m : protocol_feature_manager) (i : Nat)
    (hi : i < m._activated_protocol_features.length) :
    m.entry_block i = (m._activated_protocol_features[i]).activation_block_num := by
  unfold protocol_feature_manager.entry_block
  rw [List.getD_eq_getElem?_getD, List.getElem?_eq_getElem hi]
  rfl

theorem entry_block_mono (m : protocol_feature_manager)
    (hs : List.Pairwise
      (fun a b => a.activation_block_num ≤ b.activation_block_num)
      m._activated_protocol_features) :
    ∀ i j, i ≤ j → j < m._activated_protocol_features.length →
      m.entry_block i ≤ m.entry_block j := by
  intro i j hij hj
  rcases Nat.eq_or_lt_of_le hij with rfl | hlt
  · exact Nat.le_refl _
  · rw [entry_block_eq_getElem m i (by omega), entry_block_eq_getElem m j hj]
    exact List.pairwise_iff_getElem.mp hs i j (by omega) hj hlt

/-! ### Helper lemmas: the `add_feature` dependency loop -/

theorem resolved_cons (pfs : protocol_feature_set) (d : digest_type)
    (rest : List digest_type) :
    resolved_builtin_codes pfs (d :: rest) =
      match (pfs.find d).bind (fun pf => pf.builtin_feature) with
      | some c => c :: resolved_builtin_codes pfs rest
      | none => resolved_builtin_codes pfs rest := by
  unfold resolved_builtin_codes
  rw [List.filterMap_cons]
  cases (pfs.find d).bind (fun pf => pf.builtin_feature) <;> rfl

theorem satisfied_loop_ok_of_recognized (pfs : protocol_feature_set)
    (expected : List Nat) :
    ∀ (deps : List digest_type) (acc : List Nat),
    (∀ d ∈ deps, (pfs.find d).isSome) →
    ∃ res, satisfied_builtin_dependencies_loop pfs expected deps acc = .ok res := by
  intro deps
  induction deps with
  | nil =>
    intro acc _
    exact ⟨acc, rfl⟩
  | cons d rest ih =>
    intro acc hrec
    unfold satisfied_builtin_dependencies_loop
    rcases Option.isSome_iff_exists.mp (hrec d (by simp)) with ⟨pf, hpf⟩
    rw [hpf]
    dsimp only
    rcases hbf : pf.builtin_feature with _ | c
    · dsimp only
      exact ih acc (fun d' hd' => hrec d' (by simp [hd']))
    · dsimp only
      split
      · exact ih (acc ++ [c]) (fun d' hd' => hrec d' (by simp [hd']))
      · exact ih acc (fun d' hd' => hrec d' (by simp [hd']))

theorem satisfied_loop_mem (pfs : protocol_feature_set) (expected : List Nat) :
    ∀ (deps : List digest_type) (acc res : List Nat),
    satisfied_builtin_dependencies_loop pfs expected deps acc = .ok res →
    ∀ c, c ∈ res ↔
      (c ∈ acc ∨ (c ∈ expected ∧ c ∈ resolved_builtin_codes pfs deps)) := by
  intro deps
  induction deps with
  | nil =>
    intro acc res h c
    unfold satisfied_builtin_dependencies_loop at h
    have : acc = res := by simpa using h
    subst this
    simp [resolved_builtin_codes]
  | cons d rest ih =>
    intro acc res h c
    unfold satisfied_builtin_dependencies_loop at h
    split at h
    · simp at h
    · next pf hpf =>
      rw [resolved_cons, hpf]
      simp only [Option.some_bind]
      split at h
      · next c0 hbf =>
        split at h
        · next hcond =>
          have hmem := ih (acc ++ [c0]) res h c
          rw [hmem]
          simp only [List.mem_append, List.mem_singleton, List.mem_cons]
          by_cases hc : c = c0
          · subst hc
            simp [hcond.1]
          · simp [hc]
        · next hcond =>
          have hmem := ih acc res h c
          rw [hmem]
          simp only [List.mem_cons]
          push_neg at hcond
          by_cases hc : c = c0
          · subst hc
            constructor
            · rintro (hac | ⟨hexp, hres⟩)
              · exact Or.inl hac
              · exact Or.inr ⟨hexp, Or.inr hres⟩
            · rintro (hac | ⟨hexp, _⟩)
              · exact Or.inl hac
              · exact Or.inl (hcond hexp)
          · simp [hc]
      · next hbf =>
        exact ih acc res h c

theorem satisfied_loop_nodup (pfs : protocol_feature_set) (expected : List Nat) :
    ∀ (deps : List digest_type) (acc res : List Nat), acc.Nodup →
    satisfied_builtin_dependencies_loop pfs expected deps acc = .ok res →
    res.Nodup := by
  intro deps
  induction deps with
  | nil =>
    intro acc res hacc h
    unfold satisfied_builtin_dependencies_loop at h
    have : acc = res := by simpa using h
    subst this
    exact hacc
  | cons d rest ih =>
    intro acc res hacc h
    unfold satisfied_builtin_dependencies_loop at h
    split at h
    · simp at h
    · next pf hpf =>
      split at h
      · next c0 hbf =>
        split at h
        · next hcond =>
          refine ih (acc ++ [c0]) res ?_ h
          rw [List.nodup_append]
          exact ⟨hacc, by simp, by
            intro a ha hb
            have : a = c0 := by simpa using hb
            subst this
            exact hcond.2 ha⟩
        · exact ih acc res hacc h
      · exact ih acc res hacc h

/-! ### Helper lemmas: error characterization of `activate_feature` -/

theorem activate_nonmono_intro (m : protocol_feature_manager) (d n0 : Nat)
    (hinit : m._initialized = true) (pf : protocol_feature)
    (hfd : m._protocol_feature_set.find d = some pf)
    (lastE : protocol_feature_entry)
    (hlast : m._activated_protocol_features.getLast? = some lastE)
    (hlt : n0 < lastE.activation_block_num) :
    (m.activate_feature d n0).2 = some .non_monotonic_activation := by
  unfold protocol_feature_manager.activate_feature
  rw [if_neg (by simp [hinit]), hfd]
  dsimp only
  rw [hlast]
  dsimp only
  rw [if_pos (by simp; omega)]

theorem activate_nonmono_elim (m : protocol_feature_manager) (d n0 : Nat)
    (h : (m.activate_feature d n0).2 = some .non_monotonic_activation) :
    m._initialized = true ∧ (m._protocol_feature_set.find d).isSome ∧
    ∃ lastE ∈ m._activated_protocol_features.getLast?,
      n0 < lastE.activation_block_num := by
  unfold protocol_feature_manager.activate_feature at h
  split at h
  · simp at h
  · next hinit =>
    have hinit' : m._initialized = true := by
      revert hinit
      cases m._initialized <;> simp
    split at h
    · simp at h
    · next pf hfd =>
      dsimp only at h
      split at h
      · next hmono =>
        refine ⟨hinit', by simp [hfd], ?_⟩
        revert hmono
        cases hlast : m._activated_protocol_features.getLast? with
        | none => simp
        | some lastE =>
          intro hmono
          simp at hmono
          exact ⟨lastE, by simp [Option.mem_def], by omega⟩
      · split at h
        · simp at h
        · split at h
          · simp at h
          · split at h
            · simp at h
            · simp at h

theorem activate_already_intro (m : protocol_feature_manager) (d n0 : Nat)
    (hinit : m._initialized = true) (pf : protocol_feature) (indx : Nat)
    (hfd : m._protocol_feature_set.find d = some pf)
    (hmono : ∀ lastE ∈ m._activated_protocol_features.getLast?,
      lastE.activation_block_num ≤ n0)
    (hbi : pf.builtin_feature = some indx)
    (hlen : indx < m._builtin_protocol_features.length)
    (hslot : slot_activation_block_num m indx ≠ none) :
    (m.activate_feature d n0).2 = some .already_activated := by
  unfold protocol_feature_manager.activate_feature
  rw [if_neg (by simp [hinit]), hfd]
  dsimp only
  have hmono' : (match m._activated_protocol_features.getLast? with
      | none => true
      | some lastE => decide (lastE.activation_block_num ≤ n0)) = true := by
    cases hlast : m._activated_protocol_features.getLast? with
    | none => rfl
    | some lastE => simpa using hmono lastE hlast
  rw [hmono']
  rw [if_neg (by simp)]
  rw [hbi]
  dsimp only
  rw [if_neg (by omega)]
  unfold slot_activation_block_num at hslot
  rw [if_pos hslot]

/-! ### The claims -/

/-- C10: `activate_feature` is atomic on failure — whenever it returns an
error (not initialized, unrecognized digest, non-monotonic block number,
non-builtin feature, out-of-range builtin index, or already-activated slot),
the returned manager state is exactly the state passed in: the source performs
every check before its first mutation. -/
theorem activate_feature_atomic_on_failure (m : protocol_feature_manager)
    (d n0 : Nat) (m' : protocol_feature_manager) (e : pfm_error)
    (h : m.activate_feature d n0 = (m', some e)) :
    m' = m ∧
    m'._activated_protocol_features = m._activated_protocol_features ∧
    m'._builtin_protocol_features = m._builtin_protocol_features ∧
    m'._head_of_builtin_activation_list =
      m._head_of_builtin_activation_list := by
  have := activate_feature_err_state m d n0 m' e h
  subst this
  exact ⟨rfl, rfl, rfl, rfl⟩

/-- C10 witness: re-activating an already-active builtin fails and leaves the
sample manager untouched. -/
theorem activate_feature_atomic_on_failure_witness :
    sample_mgr = sample_mgr ∧
    sample_mgr._activated_protocol_features =
      sample_mgr._activated_protocol_features ∧
    sample_mgr._builtin_protocol_features =
      sample_mgr._builtin_protocol_features ∧
    sample_mgr._head_of_builtin_activation_list =
      sample_mgr._head_of_builtin_activation_list :=
  activate_feature_atomic_on_failure sample_mgr 10 250 sample_mgr
    .already_activated (by decide)

/-- C5: `init` fails with the double-init error when the manager is already
initialized, and whenever a replay call inside `init` fails, the scoped exit
clears the `_initialized` flag on the returned state. -/
theorem init_guard_and_rollback (m : protocol_feature_manager)
    (journal : List (digest_type × Nat)) :
    (m._initialized = true → (m.init journal).2 = some .double_init) ∧
    (∀ m' e, m.init journal = (m', some e) → m._initialized = false →
      m'._initialized = false) := by
  unfold protocol_feature_manager.init
  constructor
  · intro hinit
    rw [if_pos (by simp [hinit])]
  · intro m' e h hfalse
    rw [if_neg (by simp [hfalse])] at h
    split at h
    · simp at h
    · next m2 e0 heq =>
      have : ({ m2 with _initialized := false }, some e0) = (m', some e) := h
      have hm' := congrArg Prod.fst this
      simp only at hm'
      rw [← hm']

/-- C5 witness: a journal with an unrecognized digest makes `init` fail and
the returned manager does not report itself initialized; and `init` on the
already-initialized sample manager fails with the double-init error. -/
theorem init_guard_and_rollback_witness :
    ((protocol_feature_manager.make sample_pfs2).init [(999, 0)]).1._initialized
      = false ∧
    (sample_mgr.init []).2 = some pfm_error.double_init :=
  ⟨(init_guard_and_rollback (protocol_feature_manager.make sample_pfs2)
      [(999, 0)]).2
      ((protocol_feature_manager.make sample_pfs2).init [(999, 0)]).1
      .unrecognized_feature (by decide) (by decide),
   (init_guard_and_rollback sample_mgr []).1 (by decide)⟩

/-- C6 counterexample: on the sample manager (initialized, non-empty log with
last activation at block 200), calling `activate_feature` with an unrecognized
digest 99 at block 50 < 200 fails with the unrecognized-digest error, not the
non-monotonic error — so "fails with NonMonotonicActivation exactly when
`n` is less than the last activation block" is false as stated. -/
theorem activate_non_monotonic_cex :
    sample_mgr._initialized = true ∧
    sample_mgr._activated_protocol_features ≠ [] ∧
    (∃ lastE ∈ sample_mgr._activated_protocol_features.getLast?,
      (50 : Nat) < lastE.activation_block_num) ∧
    (sample_mgr.activate_feature 99 50).2 ≠
      some pfm_error.non_monotonic_activation ∧
    (sample_mgr.activate_feature 99 50).2 =
      some pfm_error.unrecognized_feature := by
  refine ⟨by decide, by decide, ⟨⟨20, 200⟩, by decide, by decide⟩,
    by decide, by decide⟩

/-- C6 (amended): for a digest the catalog recognizes, `activate_feature` on
an initialized manager with a non-empty log fails with the non-monotonic
error exactly when the block number is below the last entry's activation
block; and whenever the log is empty or the block number is at least that
value, the call never reports the non-monotonic error (regardless of the
digest). -/
theorem activate_non_monotonic_iff (m : protocol_feature_manager)
    (d n0 : Nat) (hinit : m._initialized = true) :
    ((m._activated_protocol_features ≠ [] →
      (m._protocol_feature_set.find d).isSome →
      ((m.activate_feature d n0).2 = some .non_monotonic_activation ↔
        ∃ lastE ∈ m._activated_protocol_features.getLast?,
          n0 < lastE.activation_block_num))) ∧
    ((m._activated_protocol_features = [] ∨
      ∀ lastE ∈ m._activated_protocol_features.getLast?,
        lastE.activation_block_num ≤ n0) →
      (m.activate_feature d n0).2 ≠ some .non_monotonic_activation) := by
  constructor
  · intro hne hrec
    constructor
    · intro h
      exact (activate_nonmono_elim m d n0 h).2.2
    · rintro ⟨lastE, hlast, hlt⟩
      rcases Option.isSome_iff_exists.mp hrec with ⟨pf, hpf⟩
      exact activate_nonmono_intro m d n0 hinit pf hpf lastE hlast hlt
  · intro hcase h
    rcases (activate_nonmono_elim m d n0 h).2.2 with ⟨lastE, hlast, hlt⟩
    rcases hcase with hcase | hcase
    · rw [hcase] at hlast
      simp at hlast
    · have := hcase lastE hlast
      omega

/-- C6 witness: activating the recognized digest 10 at block 150 on the
sample manager (last activation block 200) fails with the non-monotonic
error. -/
theorem activate_non_monotonic_iff_witness :
    (sample_mgr.activate_feature 10 150).2 =
      some pfm_error.non_monotonic_activation :=
  ((activate_non_monotonic_iff sample_mgr 10 150 (by decide)).1 (by decide)
    (by decide)).mpr ⟨⟨20, 200⟩, by decide, by decide⟩

/-- C7 counterexample: on the sample manager the builtin slot for code 0
(digest 10, activated at block 100) is active, yet re-activating digest 10 at
block 150 < 200 fails with the non-monotonic error, not the already-activated
error — so "fails with an already-activated error whenever the slot is not
NOT_ACTIVE" is false as stated. -/
theorem activate_already_activated_cex :
    slot_activation_block_num sample_mgr 0 = some 100 ∧
    (sample_mgr._protocol_feature_set.find 10).map
      (fun pf => pf.builtin_feature) = some (some 0) ∧
    (sample_mgr.activate_feature 10 150).2 ≠
      some pfm_error.already_activated ∧
    (sample_mgr.activate_feature 10 150).2 =
      some pfm_error.non_monotonic_activation := by
  refine ⟨by decide, by decide, by decide, by decide⟩

/-- C7 (amended): when the monotonicity check passes (empty log or block
number at least the last activation block), activating a recognized builtin
whose slot is not `NOT_ACTIVE` fails with the already-activated error; and
whatever the block number, such an activation always fails with some error.
In particular activating the same recognized digest twice without a rollback
succeeds the first time and fails the second. -/
theorem activate_already_activated_spec (m : protocol_feature_manager)
    (d n0 : Nat) (pf : protocol_feature) (indx : Nat)
    (hinit : m._initialized = true)
    (hfd : m._protocol_feature_set.find d = some pf)
    (hbi : pf.builtin_feature = some indx)
    (hlen : indx < m._builtin_protocol_features.length)
    (hslot : slot_activation_block_num m indx ≠ none) :
    (m.activate_feature d n0).2.isSome = true ∧
    ((∀ lastE ∈ m._activated_protocol_features.getLast?,
        lastE.activation_block_num ≤ n0) →
      (m.activate_feature d n0).2 = some .already_activated) := by
  constructor
  · cases hres : m.activate_feature d n0 with
    | mk m1 o =>
      cases o with
      | some e => rfl
      | none =>
        obtain ⟨-, pf', indx', hfd', hbi', -, hslot', -, -⟩ :=
          activate_feature_success m m1 d n0 hres
        rw [hfd] at hfd'
        have hpf : pf = pf' := by simpa using hfd'
        subst hpf
        rw [hbi] at hbi'
        have hindx : indx = indx' := by simpa using hbi'
        subst hindx
        exact absurd hslot' hslot
  · intro hmono
    exact activate_already_intro m d n0 hinit pf indx hfd hmono hbi hlen hslot

/-- C7 witness: re-activating digest 10 at block 250 (monotonicity holds, the
slot for code 0 is active) fails with the already-activated error. -/
theorem activate_already_activated_spec_witness :
    (sample_mgr.activate_feature 10 250).2 =
      some pfm_error.already_activated :=
  (activate_already_activated_spec sample_mgr 10 250
    ⟨10, 111, [], 0, false, true, some 0⟩ 0 (by decide) (by decide)
    (by decide) (by decide) (by decide)).2 (by decide)

theorem sample_mgr_reachable : Reachable sample_mgr :=
  Reachable.base sample_pfs2 [(10, 100), (20, 200)] sample_mgr (by decide)

theorem sample_mgr1_reachable : Reachable sample_mgr1 :=
  Reachable.base sample_pfs2 [(10, 100)] sample_mgr1 (by decide)

theorem sample_mgr_inv : manager_inv sample_mgr :=
  reachable_inv sample_mgr sample_mgr_reachable

theorem sample_mgr1_inv : manager_inv sample_mgr1 :=
  reachable_inv sample_mgr1 sample_mgr1_reachable

/-- C1: `is_builtin_activated(c, h)` returns true iff the builtin slot for `c`
is not the `NOT_ACTIVE` sentinel and its activation block is at most `h`; and
on every manager reached by initializing and running any sequence of
successful `activate_feature`/`popped_blocks_to` calls, this equals the
existence of an activation-log entry resolving to `c` with activation block at
most `h`. -/
theorem is_builtin_activated_spec (m : protocol_feature_manager) (c h0 : Nat) :
    (m.is_builtin_activated c h0 = true ↔
      ∃ b, slot_activation_block_num m c = some b ∧ b ≤ h0) ∧
    (Reachable m →
      (m.is_builtin_activated c h0 = true ↔
        ∃ e ∈ m._activated_protocol_features,
          entry_code m._protocol_feature_set e = some c ∧
          e.activation_block_num ≤ h0)) :=
  ⟨is_builtin_activated_slot m c h0,
   fun hR => inv_is_builtin_activated_iff m (reachable_inv m hR) c h0⟩

/-- C1 witness: on the sample manager the query for code 0 at block 100
agrees with the log-entry characterization. -/
theorem is_builtin_activated_spec_witness :
    sample_mgr.is_builtin_activated 0 100 = true ↔
      ∃ e ∈ sample_mgr._activated_protocol_features,
        entry_code sample_mgr._protocol_feature_set e = some 0 ∧
        e.activation_block_num ≤ 100 :=
  (is_builtin_activated_spec sample_mgr 0 100).2 sample_mgr_reachable

/-- C2: on every manager state satisfying the log/slot invariants,
`popped_blocks_to(h0)` succeeds, every remaining log entry has activation
block at most `h0`, and the per-builtin slot table agrees with the log: a slot
is non-sentinel exactly when an entry for that builtin remains. -/
theorem popped_blocks_to_spec (m : protocol_feature_manager) (h0 : Nat)
    (hInv : manager_inv m) : popped_spec_holds m h0 := by
  have h2 : (m.popped_blocks_to h0).2 = none := by
    unfold protocol_feature_manager.popped_blocks_to
    rw [if_neg (by simp [hInv.1])]
  have hpop : m.popped_blocks_to h0 = ((m.popped_blocks_to h0).1, none) := by
    cases hres : m.popped_blocks_to h0 with
    | mk a b =>
      rw [hres] at h2
      simp only at h2
      simp [h2]
  obtain ⟨hInv', hact, hpfs⟩ := manager_inv_popped m _ h0 hInv hpop
  refine ⟨(m.popped_blocks_to h0).1, hpop, ?_,
    fun c => inv_slot_ne_none_iff _ hInv' c⟩
  rw [hact]
  intro e he
  have := List.mem_takeWhile_imp he
  simpa using this

/-- C2 witness: rolling the sample manager back to block 150 leaves only the
block-100 activation and a coherent slot table. -/
theorem popped_blocks_to_spec_witness : popped_spec_holds sample_mgr 150 :=
  popped_blocks_to_spec sample_mgr 150 sample_mgr_inv

/-- C3: on an invariant-satisfying manager whose activations all lie at or
below the previous chain tip, a successful `activate_feature(d, n0)` at a
block beyond that tip followed by `popped_blocks_to(prev_tip)` restores the
manager to exactly the state before the activation. -/
theorem activate_then_popped_restores (m m' : protocol_feature_manager)
    (d n0 prev_tip : Nat) (hInv : manager_inv m)
    (hprev : ∀ e ∈ m._activated_protocol_features,
      e.activation_block_num ≤ prev_tip)
    (htip : prev_tip < n0)
    (hact : m.activate_feature d n0 = (m', none)) :
    m'.popped_blocks_to prev_tip = (m, none) := by
  obtain ⟨hinit, hsort, pairs, hF, hnd, hpush⟩ := hInv
  obtain ⟨-, pf, indx, hfind, hbi, hlen, hslot, hmono, rfl⟩ :=
    activate_feature_success m m' d n0 hact
  have hlt := pairs_fst_lt _ _ _ _ hF
  have hbuiltin_eq := congrArg Prod.fst hpush
  have hhead_eq := congrArg Prod.snd hpush
  have hnotmem : indx ∉ pairs.map Prod.fst := by
    intro hmem
    have := (push_all_slot_abn_ne_none_iff
      m._builtin_protocol_features.length pairs indx hnd hlt).mpr hmem
    rw [← hbuiltin_eq] at this
    exact this hslot
  have hloP : ∀ p ∈ pairs, p.2 ≤ prev_tip := by
    intro p hp
    rcases forall₂_mem_right hF hp with ⟨e, he, hR⟩
    rw [hR.2.2]
    exact hprev e he
  have hpush' : (m._builtin_protocol_features.set indx
      ⟨some n0, m._head_of_builtin_activation_list⟩, some indx) =
      push_all m._builtin_protocol_features.length (pairs ++ [(indx, n0)]) := by
    rw [push_all_concat]
    unfold push_builtin
    rw [← hbuiltin_eq, ← hhead_eq]
  have hnd2 : ((pairs ++ [(indx, n0)]).map Prod.fst).Nodup := by
    simp only [List.map_append, List.map_cons, List.map_nil]
    rw [List.nodup_append]
    exact ⟨hnd, by simp, by
      intro a ha hb
      have : a = indx := by simpa using hb
      subst this
      exact hnotmem ha⟩
  have hlt2 : ∀ p ∈ pairs ++ [(indx, n0)],
      p.1 < m._builtin_protocol_features.length := by
    intro p hp
    rcases List.mem_append.mp hp with hp | hp
    · exact hlt p hp
    · have : p = (indx, n0) := by simpa using hp
      subst this
      exact hlen
  have hstack := pop_stack_loop_pops prev_tip
    m._builtin_protocol_features.length pairs [(indx, n0)]
    (m._builtin_protocol_features.length + 1) hnd2 hlt2
    (by
      intro p hp
      have : p = (indx, n0) := by simpa using hp
      subst this
      exact htip)
    hloP (by simp; omega)
  have hentries := pop_entries_loop_eq prev_tip
    m._activated_protocol_features [⟨d, n0⟩] hprev
    (by
      intro e he
      have : e = ⟨d, n0⟩ := by simpa using he
      subst this
      exact htip)
  unfold protocol_feature_manager.popped_blocks_to
  rw [if_neg (by simp [hinit])]
  dsimp only
  simp only [List.length_set]
  rw [hpush', hstack, ← hpush, hentries]

/-- C3 witness: on the single-activation sample manager (tip 100), activating
digest 20 at block 150 and popping back to 100 restores the exact state. -/
theorem activate_then_popped_restores_witness :
    ((sample_mgr1.activate_feature 20 150).1).popped_blocks_to 100 =
      (sample_mgr1, none) :=
  activate_then_popped_restores sample_mgr1
    (sample_mgr1.activate_feature 20 150).1 20 150 100 sample_mgr1_inv
    (by decide) (by decide) (by decide)

/-- C8: on a log sorted non-decreasingly by activation block,
`lower_bound(b)` returns the cursor at the first ordinal whose activation
block is `≥ b` (or the end cursor when none exists), and `upper_bound(b)`
likewise with strict `>`. -/
theorem lower_upper_bound_spec (m : protocol_feature_manager) (b : Nat)
    (hs : List.Pairwise
      (fun a c => a.activation_block_num ≤ c.activation_block_num)
      m._activated_protocol_features) :
    bounds_spec_holds m b := by
  set N := m._activated_protocol_features.length with hN
  constructor
  · have hmonoL : ∀ i j, i ≤ j → j < N →
        (decide (m.entry_block j < b)) = true →
        (decide (m.entry_block i < b)) = true := by
      intro i j hij hj hdec
      simp only [decide_eq_true_eq] at hdec ⊢
      have := entry_block_mono m hs i j hij hj
      omega
    obtain ⟨hle, hlow, hhigh⟩ := std_bound_idx_correct
      (fun j => decide (m.entry_block j < b)) N hmonoL N 0 (by omega)
      (fun j hj => absurd hj (by omega))
      (fun j h1 h2 => absurd h1 (by omega))
    set i0 := std_bound_idx (fun j => decide (m.entry_block j < b)) 0 N with hi0
    have hlbval : m.lower_bound b = if i0 = N then m.cend else ⟨true, some i0⟩ :=
      rfl
    by_cases hcase : i0 = N
    · refine Or.inr ⟨by rw [hlbval, if_pos hcase], ?_⟩
      intro j hj
      have := hlow j (by omega)
      simpa using this
    · refine Or.inl ⟨i0, by rw [hlbval, if_neg hcase], by omega, ?_, ?_⟩
      · have := hhigh i0 (by omega) (by omega)
        simp only [decide_eq_false_iff_not] at this
        omega
      · intro j hj
        have := hlow j hj
        simpa using this
  · have hmonoU : ∀ i j, i ≤ j → j < N →
        (decide (m.entry_block j ≤ b)) = true →
        (decide (m.entry_block i ≤ b)) = true := by
      intro i j hij hj hdec
      simp only [decide_eq_true_eq] at hdec ⊢
      have := entry_block_mono m hs i j hij hj
      omega
    obtain ⟨hle, hlow, hhigh⟩ := std_bound_idx_correct
      (fun j => decide (m.entry_block j ≤ b)) N hmonoU N 0 (by omega)
      (fun j hj => absurd hj (by omega))
      (fun j h1 h2 => absurd h1 (by omega))
    set i0 := std_bound_idx (fun j => decide (m.entry_block j ≤ b)) 0 N with hi0
    have hubval : m.upper_bound b = if i0 = N then m.cend else ⟨true, some i0⟩ :=
      rfl
    by_cases hcase : i0 = N
    · refine Or.inr ⟨by rw [hubval, if_pos hcase], ?_⟩
      intro j hj
      have := hlow j (by omega)
      simpa using this
    · refine Or.inl ⟨i0, by rw [hubval, if_neg hcase], by omega, ?_, ?_⟩
      · have := hhigh i0 (by omega) (by omega)
        simp only [decide_eq_false_iff_not] at this
        omega
      · intro j hj
        have := hlow j hj
        simpa using this

/-- C8 witness: on the manager with activation blocks 10, 20, 20, 30 the two
binary searches at argument 20 meet the first-`≥`/first-`>` specification
(scenario 6 of the specification). -/
theorem lower_upper_bound_spec_witness : bounds_spec_holds sample_mgr4 20 :=
  lower_upper_bound_spec sample_mgr4 20 (by decide)

/-- C9 counterexample: dereferencing a singular cursor does not fail with the
clean iterator-misuse error — the guards in `get_pointer` are commented out in
the source and the operation reads through the invalid cursor — so "every
cursor operation other than assignment fails on a singular cursor" is false
as stated for dereference. -/
theorem iterator_singular_deref_cex :
    (⟨false, some 0⟩ : const_iterator).has_pfm = false ∧
    const_iterator.get_pointer sample_mgr ⟨false, some 0⟩ ≠
      iter_result.misuse ∧
    const_iterator.get_pointer sample_mgr ⟨false, some 0⟩ =
      iter_result.invalid_access :=
  ⟨rfl, by decide, by decide⟩

/-- C9 (amended): `activation_ordinal`, `activation_block_num`, increment and
decrement fail with the iterator-misuse error on a singular cursor;
increment, `activation_ordinal` and `activation_block_num` fail on the end
cursor, and decrement fails on the end cursor of an empty log; dereference
performs no such check (its guards are commented out) and instead accesses an
invalid position on singular and end cursors. -/
theorem iterator_guard_spec (m : protocol_feature_manager)
    (it : const_iterator) :
    (it.has_pfm = false →
      (const_iterator.activation_ordinal m it = .misuse ∧
       const_iterator.activation_block_num m it = .misuse ∧
       const_iterator.inc m it = .misuse ∧
       const_iterator.dec m it = .misuse ∧
       const_iterator.get_pointer m it = .invalid_access)) ∧
    (const_iterator.inc m m.cend = .misuse) ∧
    (const_iterator.activation_ordinal m m.cend = .misuse) ∧
    (const_iterator.activation_block_num m m.cend = .misuse) ∧
    (m._activated_protocol_features.length = 0 →
      const_iterator.dec m m.cend = .misuse) ∧
    (const_iterator.get_pointer m m.cend = .invalid_access) := by
  refine ⟨?_, rfl, rfl, rfl, ?_, rfl⟩
  · intro h
    exact ⟨by simp [const_iterator.activation_ordinal, h],
      by simp [const_iterator.activation_block_num, h],
      by simp [const_iterator.inc, h],
      by simp [const_iterator.dec, h],
      by simp [const_iterator.get_pointer, h]⟩
  · intro h
    simp [const_iterator.dec, protocol_feature_manager.cend, h]

/-- C9 witness: the four guarded operations report misuse on a singular
cursor over the sample manager, while dereference reads an invalid
position. -/
theorem iterator_guard_spec_witness :
    const_iterator.activation_ordinal sample_mgr ⟨false, some 0⟩ =
      iter_result.misuse ∧
    const_iterator.activation_block_num sample_mgr ⟨false, some 0⟩ =
      iter_result.misuse ∧
    const_iterator.inc sample_mgr ⟨false, some 0⟩ = iter_result.misuse ∧
    const_iterator.dec sample_mgr ⟨false, some 0⟩ = iter_result.misuse ∧
    const_iterator.get_pointer sample_mgr ⟨false, some 0⟩ =
      iter_result.invalid_access :=
  (iterator_guard_spec sample_mgr ⟨false, some 0⟩).1 rfl

/-- C4 counterexample: `add_feature` accepts `sample_featB` (builtin code 1,
declared builtin dependencies empty) although its dependency digest set
resolves to builtin code 0 — the resolved builtin-code set is a strict
superset of the declared set, so "exactly equals" is false as stated. -/
theorem add_feature_builtin_dependency_cex :
    protocol_feature_set.add_feature builtin_protocol_feature_codenames
      ⟨[], []⟩ sample_featA 10 = .ok sample_pfs1 ∧
    protocol_feature_set.add_feature builtin_protocol_feature_codenames
      sample_pfs1 sample_featB 20 = .ok sample_pfs2 ∧
    (0 : Nat) ∈ resolved_builtin_codes sample_pfs1 sample_featB.dependencies ∧
    (builtin_protocol_feature_codenames.find?
      (fun p => p.1 == sample_featB._codename)).map
      (fun p => p.2.builtin_dependencies) = some [] ∧
    (0 : Nat) ∉ ([] : List Nat) := by
  refine ⟨rfl, rfl, by decide, by decide, by decide⟩

/-- C4 (amended): for every builtin feature `f` accepted by `add_feature`,
the set of builtin codes obtained by resolving `f`'s dependency digests
through the catalog is a superset of the builtin dependencies declared in
`f`'s compiled-in spec; and `add_feature` rejects with the
unsatisfied-builtin-dependencies error any feature (passing the earlier
checks) whose resolved builtin-code set misses a declared dependency. -/
theorem add_feature_builtin_dependency_check
    (codenames : List (Nat × builtin_protocol_feature_spec))
    (pfs : protocol_feature_set) (f : builtin_protocol_feature)
    (fd : digest_type) (p0 : Nat × builtin_protocol_feature_spec)
    (hfind : codenames.find? (fun p => p.1 == f._codename) = some p0) :
    (∀ pfs', protocol_feature_set.add_feature codenames pfs f fd = .ok pfs' →
      ∀ c ∈ p0.2.builtin_dependencies,
        c ∈ resolved_builtin_codes pfs f.dependencies) ∧
    ((¬ (f._codename < pfs._recognized_builtin_protocol_features.length ∧
        pfs._recognized_builtin_protocol_features.getD f._codename none
          ≠ none)) →
      (∀ d ∈ f.dependencies, (pfs.find d).isSome) →
      (∃ c ∈ p0.2.builtin_dependencies,
        c ∉ resolved_builtin_codes pfs f.dependencies) →
      protocol_feature_set.add_feature codenames pfs f fd =
        .error .unsatisfied_builtin_dependencies) := by
  constructor
  · intro pfs' h c hc
    unfold protocol_feature_set.add_feature at h
    rw [hfind] at h
    dsimp only at h
    split at h
    · simp at h
    · next hdup =>
      split at h
      · simp at h
      · next satisfied hsat =>
        split at h
        · simp at h
        · next hlen =>
          have hmem := satisfied_loop_mem pfs p0.2.builtin_dependencies
            f.dependencies [] satisfied hsat
          have hndS := satisfied_loop_nodup pfs p0.2.builtin_dependencies
            f.dependencies [] satisfied (by simp) hsat
          have hsub : satisfied ⊆ p0.2.builtin_dependencies := by
            intro x hx
            rcases (hmem x).mp hx with hx' | hx'
            · simp at hx'
            · exact hx'.1
          have hsp := hndS.subperm hsub
          have hperm : satisfied.Perm p0.2.builtin_dependencies :=
            List.Subperm.perm_of_length_le hsp (by omega)
          have hcs : c ∈ satisfied := hperm.mem_iff.mpr hc
          rcases (hmem c).mp hcs with h' | h'
          · simp at h'
          · exact h'.2
  · rintro hdup hrec ⟨c, hc, hcr⟩
    unfold protocol_feature_set.add_feature
    rw [hfind]
    dsimp only
    rw [if_neg hdup]
    obtain ⟨satisfied, hsat⟩ := satisfied_loop_ok_of_recognized pfs
      p0.2.builtin_dependencies f.dependencies [] hrec
    rw [hsat]
    dsimp only
    have hmem := satisfied_loop_mem pfs p0.2.builtin_dependencies
      f.dependencies [] satisfied hsat
    have hndS := satisfied_loop_nodup pfs p0.2.builtin_dependencies
      f.dependencies [] satisfied (by simp) hsat
    have hsub : satisfied ⊆ p0.2.builtin_dependencies := by
      intro x hx
      rcases (hmem x).mp hx with hx' | hx'
      · simp at hx'
      · exact hx'.1
    have hsp := hndS.subperm hsub
    rw [if_pos ?hl]
    case hl =>
      rcases Nat.lt_or_ge satisfied.length p0.2.builtin_dependencies.length
        with hl | hl
      · exact hl
      · exfalso
        have hperm : satisfied.Perm p0.2.builtin_dependencies :=
          List.Subperm.perm_of_length_le hsp (by omega)
        have hcs : c ∈ satisfied := hperm.mem_iff.mpr hc
        rcases (hmem c).mp hcs with h' | h'
        · simp at h'
        · exact hcr h'.2

/-- C4 witness: under a codename table whose builtin 1 declares a builtin
dependency on builtin 0, adding builtin 1 with an empty dependency-digest set
is rejected with the unsatisfied-builtin-dependencies error (scenario 2 of
the specification). -/
theorem add_feature_builtin_dependency_check_witness :
    protocol_feature_set.add_feature sample_codenames_dep ⟨[], []⟩
      sample_featB_nodeps 30 =
      .error add_feature_error.unsatisfied_builtin_dependencies :=
  (add_feature_builtin_dependency_check sample_codenames_dep ⟨[], []⟩
    sample_featB_nodeps 30 (1, ⟨"B", 0, [0], ⟨0, false, true⟩⟩)
    (by decide)).2 (by decide) (by decide)
    ⟨0, by decide, by decide⟩
